import Mathlib

/-!
Shallow embedding of the real-time audio core of the `faveworm` oscilloscope
application, together with proofs of its specified properties.

Modelling conventions:
* float / double values are modelled as exact numbers: `ℚ` where only
  comparisons and copying occur (ring buffer contents, trigger thresholds),
  `ℝ` where transcendental functions are involved (filters, morpher,
  oscillator, gain ramp).
* `size_t` / `int` counters are modelled as `ℕ` (they never wrap in practice;
  where the C++ code relies on wrap-around before masking, the model uses
  integer `emod`, see `rbMaskZ`).
* atomics are single-writer and are modelled as plain state; parameters read
  from atomics at the top of each sample (threshold, polarity) are passed as
  arguments to the per-sample step function.
-/

/-- `RingBuffer::kSize` — fixed capacity of the visualization ring buffer.
Must be a power of two. -/
def RingBuffer.kSize : ℕ := 16384

/-- Index masking `pos & (kSize - 1)` used throughout the ring buffer. -/
def rbMask (n : ℕ) : ℕ := n &&& (RingBuffer.kSize - 1)

/-- Index masking applied to a `size_t` expression that may wrap around zero
(`(pos + offset) & (kSize - 1)` with a negative `offset`).  Since
`kSize` divides `2 ^ 64`, wrap-around followed by masking is exactly the
Euclidean remainder mod `kSize`. -/
def rbMaskZ (z : ℤ) : ℕ := (z % (RingBuffer.kSize : ℤ)).toNat

/-- The `RingBuffer` class: two sample arrays of length `kSize` (modelled as
total functions consulted only at masked indices, zero-initialized like the
C++ member arrays) and the monotone write cursor `write_pos_`. -/
structure RingBuffer where
  left : ℕ → ℚ
  right : ℕ → ℚ
  write_pos : ℕ

/-- A freshly constructed `RingBuffer`: zeroed arrays, cursor at 0. -/
def RingBuffer.init : RingBuffer :=
  { left := fun _ => 0, right := fun _ => 0, write_pos := 0 }

/-- `RingBuffer::write` — store one stereo pair at the masked cursor and
advance the cursor. -/
def RingBuffer.write (rb : RingBuffer) (l r : ℚ) : RingBuffer :=
  { left := Function.update rb.left (rbMask rb.write_pos) l
    right := Function.update rb.right (rbMask rb.write_pos) r
    write_pos := rb.write_pos + 1 }

/-- `RingBuffer::read` — return the `num_samples` most recent samples ending
`offset` before the cursor (start clamped to 0 when insufficient history). -/
def RingBuffer.read (rb : RingBuffer) (num_samples offset : ℕ) : List ℚ × List ℚ :=
  let pos := rb.write_pos
  let start := if pos ≥ num_samples + offset then pos - num_samples - offset else 0
  ((List.range num_samples).map fun i => rb.left (rbMask (start + i)),
   (List.range num_samples).map fun i => rb.right (rbMask (start + i)))

/-- `RingBuffer::readLeft` — single sample at a signed offset from the cursor
(`size_t` wrap-around then masking). -/
def RingBuffer.readLeft (rb : RingBuffer) (offset : ℤ) : ℚ :=
  rb.left (rbMaskZ ((rb.write_pos : ℤ) + offset))

/-- `RingBuffer::readRight`. -/
def RingBuffer.readRight (rb : RingBuffer) (offset : ℤ) : ℚ :=
  rb.right (rbMaskZ ((rb.write_pos : ℤ) + offset))

/-- `RingBuffer::readLeftAt` — absolute indexed access, masked. -/
def RingBuffer.readLeftAt (rb : RingBuffer) (index : ℕ) : ℚ :=
  rb.left (rbMask index)

/-- `RingBuffer::readRightAt`. -/
def RingBuffer.readRightAt (rb : RingBuffer) (index : ℕ) : ℚ :=
  rb.right (rbMask index)

/-- `RingBuffer::writePos`. -/
def RingBuffer.writePos (rb : RingBuffer) : ℕ := rb.write_pos

/-- Writing a whole sequence of stereo pairs, one `write` per element. -/
def RingBuffer.writeList (rb : RingBuffer) (xs : List (ℚ × ℚ)) : RingBuffer :=
  xs.foldl (fun b p => b.write p.1 p.2) rb

/-- `AudioPlayer::kSweepSamples` — samples per display sweep. -/
def AudioPlayer.kSweepSamples : ℕ := 1024

/-- `AudioPlayer::kDeadSamples` — dead time after trigger (unused by the
current trigger path). -/
def AudioPlayer.kDeadSamples : ℕ := 256

/-- `AudioPlayer::kEvalSamples` — evaluation window for waveform locking
(scaffolding only). -/
def AudioPlayer.kEvalSamples : ℕ := 512

/-- The trigger-related state of `AudioPlayer` mutated by the audio thread:
ring buffer, previous scope sample, holdoff counter, waveform-lock reference
snapshot, and the published last-trigger position.  Fields of the C++ class
not touched by the scope/trigger path (stream handles, decoded audio, filter
objects, gain state) are modelled separately or omitted. -/
structure AudioPlayer where
  ring_buffer : RingBuffer
  prev_trigger_l : ℚ
  trigger_holdoff : ℕ
  reference_buffer : List ℚ
  latest_trigger_pos : ℕ

/-- Initial `AudioPlayer` trigger state (member initializers). -/
def AudioPlayer.init : AudioPlayer :=
  { ring_buffer := RingBuffer.init
    prev_trigger_l := 0
    trigger_holdoff := 0
    reference_buffer := []
    latest_trigger_pos := 0 }

/-- The edge-crossing test of `AudioPlayer::process`:
`rising ? (prev ≤ thresh ∧ cur > thresh) : (prev ≥ thresh ∧ cur < thresh)`. -/
def AudioPlayer.crossed (thresh : ℚ) (rising : Bool) (prev cur : ℚ) : Bool :=
  if rising then decide (prev ≤ thresh ∧ cur > thresh)
  else decide (prev ≥ thresh ∧ cur < thresh)

/-- One scope sample of `AudioPlayer::process` (the body of the
`if (!paused_)` block): write the scope pair to the ring buffer, evaluate the
crossing against the holdoff gate, on acceptance publish the masked cursor as
the trigger position, reset the holdoff and capture the reference snapshot;
finally update `prev_trigger_l_` and increment the holdoff counter.
`thresh` and `rising` are the values read from the parameter atomics at this
sample.  The waveform-lock branch is scaffolding: `triggered` is
unconditionally `true` in the source. -/
def AudioPlayer.processScopeSample (thresh : ℚ) (rising : Bool) (p : AudioPlayer)
    (scope_l scope_r : ℚ) : AudioPlayer :=
  let ring := p.ring_buffer.write scope_l scope_r
  let cr := AudioPlayer.crossed thresh rising p.prev_trigger_l scope_l
  let find_trigger := decide (p.trigger_holdoff ≥ AudioPlayer.kSweepSamples)
  if cr && find_trigger then
    let pos := rbMask ring.writePos
    { ring_buffer := ring
      prev_trigger_l := scope_l
      trigger_holdoff := 0 + 1
      reference_buffer :=
        (List.range AudioPlayer.kSweepSamples).map fun j => ring.readLeftAt (rbMask (pos + j))
      latest_trigger_pos := pos }
  else
    { ring_buffer := ring
      prev_trigger_l := scope_l
      trigger_holdoff := p.trigger_holdoff + 1
      reference_buffer := p.reference_buffer
      latest_trigger_pos := p.latest_trigger_pos }

/-- State after the first `n` processed scope samples of the run determined by
the sample stream `samples`, starting from `p0`. -/
def AudioPlayer.stateAt (thresh : ℚ) (rising : Bool) (p0 : AudioPlayer)
    (samples : ℕ → ℚ × ℚ) (n : ℕ) : AudioPlayer :=
  Nat.rec p0
    (fun k p => AudioPlayer.processScopeSample thresh rising p (samples k).1 (samples k).2) n

/-- Whether scope sample `n` of the run is accepted as a trigger: the crossing
test fires and the holdoff counter has reached a full sweep. -/
def AudioPlayer.acceptedAt (thresh : ℚ) (rising : Bool) (p0 : AudioPlayer)
    (samples : ℕ → ℚ × ℚ) (n : ℕ) : Bool :=
  let p := AudioPlayer.stateAt thresh rising p0 samples n
  AudioPlayer.crossed thresh rising p.prev_trigger_l (samples n).1
    && decide (p.trigger_holdoff ≥ AudioPlayer.kSweepSamples)

/-- `AudioPlayer::getTriggeredSamples` — if no trigger was published
(`latest_trigger_pos_ == 0`) or the distance from the stored (masked) trigger
position to the (unmasked) write cursor exceeds half the capacity, free-run
from the most recent samples and return `false`; otherwise return the sweep
starting at the stored trigger position and `true`.  The `ℕ` subtraction
agrees with the C++ `size_t` subtraction because `trigger_pos ≤ write_pos` in
every reachable state. -/
def AudioPlayer.getTriggeredSamples (p : AudioPlayer) (num_samples : ℕ) : Bool × List ℚ :=
  let write_pos := p.ring_buffer.writePos
  let trigger_pos := p.latest_trigger_pos
  if trigger_pos = 0 ∨ write_pos - trigger_pos > RingBuffer.kSize / 2 then
    (false,
     (List.range num_samples).map fun i =>
       p.ring_buffer.readLeft (-(num_samples : ℤ) + (i : ℤ)))
  else
    (true,
     (List.range num_samples).map fun i =>
       p.ring_buffer.readLeftAt (rbMask (trigger_pos + i)))

/-- A concrete starting state for exercising the trigger path: the holdoff
gate is already open and the previous sample sits below the threshold. -/
def wPlayer0 : AudioPlayer :=
  { ring_buffer := RingBuffer.init
    prev_trigger_l := -1
    trigger_holdoff := 1024
    reference_buffer := []
    latest_trigger_pos := 0 }

/-- A concrete scope-sample stream: a positive spike at samples 0 and 1024,
`-1` everywhere else. -/
def wSamples (n : ℕ) : ℚ × ℚ := (if n = 0 ∨ n = 1024 then 1 else -1, 0)

noncomputable section

/-- `std::clamp(v, lo, hi)`: `lo` if `v < lo`, else `hi` if `hi < v`, else
`v`. -/
def stdClamp (v lo hi : ℝ) : ℝ :=
  if v < lo then lo else if hi < v then hi else v

/-- The `SimpleSVF` filter of `FilterMorpher.h`: sample rate, parameters,
loop coefficients and the two integrator states. -/
structure SimpleSVF where
  sample_rate : ℝ
  cutoff : ℝ
  resonance : ℝ
  pre_gain : ℝ
  g : ℝ
  k : ℝ
  a1 : ℝ
  z1 : ℝ
  z2 : ℝ

/-- `SimpleSVF::softClip` — tanh saturation on every feedback path. -/
def SimpleSVF.softClip (x : ℝ) : ℝ := Real.tanh x

/-- `SimpleSVF::setPreGain` — stores the value with no clamping. -/
def SimpleSVF.setPreGain (f : SimpleSVF) (g : ℝ) : SimpleSVF :=
  { f with pre_gain := g }

/-- `SimpleSVF::process` — one TPT SVF step: input scaled by
`kBaseInputGain * pre_gain_`, soft-clipped loop input, trapezoidal state
update with soft-clipped feedback, outputs compensated by `kOutputGain`. -/
def SimpleSVF.process (f : SimpleSVF) (input : ℝ) : SimpleSVF × (ℝ × ℝ × ℝ) :=
  let inp := input * (0.5 * f.pre_gain)
  let v0 := SimpleSVF.softClip (inp - f.k * f.z1 - f.z2)
  let hp := v0 * f.a1
  let bp := f.g * hp + f.z1
  let lp := f.g * bp + f.z2
  ({ f with z1 := 2 * SimpleSVF.softClip bp - f.z1
            z2 := 2 * SimpleSVF.softClip lp - f.z2 },
   (lp * 2, bp * 2, hp * 2))

/-- The `StereoFilterRouter`, reduced to the part the claims touch: its
embedded `SimpleSVF` (the preset table is a pure selection layer). -/
structure StereoFilterRouter where
  svf : SimpleSVF

/-- `StereoFilterRouter::setPreGain` — forwards to the embedded filter. -/
def StereoFilterRouter.setPreGain (r : StereoFilterRouter) (g : ℝ) : StereoFilterRouter :=
  { svf := r.svf.setPreGain g }

/-- The pre-gain related state of `AudioPlayer`: the `pre_gain_` atomic, the
global `svf_` and the `stereo_router_`. -/
structure AudioPlayerFilters where
  pre_gain : ℝ
  svf : SimpleSVF
  stereo_router : StereoFilterRouter

/-- `AudioPlayer::setPreGain` — stores `v` into the atomic and forwards it to
the filter and the router, all without clamping. -/
def AudioPlayerFilters.setPreGain (p : AudioPlayerFilters) (v : ℝ) : AudioPlayerFilters :=
  { pre_gain := v
    svf := p.svf.setPreGain v
    stereo_router := p.stereo_router.setPreGain v }

/-- A `SimpleSVF` with the default member initializers of the source. -/
def SimpleSVF.init : SimpleSVF :=
  { sample_rate := 44100, cutoff := 150, resonance := 0.7, pre_gain := 1,
    g := 0, k := 1, a1 := 1, z1 := 0, z2 := 0 }

/-- A default `AudioPlayerFilters` state (`kDefaultPreGain = 1`). -/
def audioPlayerFiltersInit : AudioPlayerFilters :=
  { pre_gain := 1, svf := SimpleSVF.init, stereo_router := { svf := SimpleSVF.init } }

/-- The `FilterMorpher`: primary position, polar decomposition, the four
cached crossfade weights, the split parameters and the derived Y-channel
angle, radius and weights. -/
structure FilterMorpher where
  pos_x : ℝ
  pos_y : ℝ
  radius : ℝ
  angle : ℝ
  w_lp : ℝ
  w_bp : ℝ
  w_hp : ℝ
  w_br : ℝ
  split_angle : ℝ
  split_depth : ℝ
  angle_y : ℝ
  radius_y : ℝ
  w_lp_y : ℝ
  w_bp_y : ℝ
  w_hp_y : ℝ
  w_br_y : ℝ

/-- The smooth cosine window of `FilterMorpher::computeWeights`: circular
distance from `a` to `center` in normalized angle, cosine window squared,
floored at 0.  (`kPi` is the source's 3.14159… literal, modelled as `π`.) -/
def FilterMorpher.smoothWeight (center a : ℝ) : ℝ :=
  let dist0 := |a - center|
  let dist := if dist0 > 0.5 then 1 - dist0 else dist0
  let w := Real.cos (min (dist * 4) 1 * (Real.pi * 0.5))
  max 0 (w * w)

/-- `FilterMorpher::computeWeights` — evaluate the four windows at the four
role centers (HP at 0, BP at ¼, LP at ½, BR at ¾ of the circle), patch the
wrap-around seam for HP by also evaluating at 1, then normalize by the sum
plus an epsilon floor.  Returns `(w_lp, w_bp, w_hp, w_br)`. -/
def FilterMorpher.computeWeights (angle : ℝ) : ℝ × ℝ × ℝ × ℝ :=
  let a := angle / (2 * Real.pi)
  let w_hp := FilterMorpher.smoothWeight 0 a
  let w_bp := FilterMorpher.smoothWeight 0.25 a
  let w_lp := FilterMorpher.smoothWeight 0.5 a
  let w_br := FilterMorpher.smoothWeight 0.75 a
  let w_hp := max w_hp (FilterMorpher.smoothWeight 1 a)
  let sum := w_lp + w_bp + w_hp + w_br + 0.0001
  (w_lp / sum, w_bp / sum, w_hp / sum, w_br / sum)

/-- The wrap-into-`[0, 2π)` loops of `FilterMorpher::updateYWeights`
(`while (x ≥ 2π) x -= 2π; while (x < 0) x += 2π`): for any real input both
loops terminate and compute exactly the reduction of `x` mod `2π`. -/
def wrapTwoPi (x : ℝ) : ℝ := x - 2 * Real.pi * (⌊x / (2 * Real.pi)⌋ : ℝ)

/-- `atan2f(y, x)` — the argument of the point `(x, y)`, in `(-π, π]`. -/
def atan2 (y x : ℝ) : ℝ := Complex.arg { re := x, im := y }

/-- `FilterMorpher::updateYWeights` — Y angle is the primary angle plus the
split angle, wrapped; Y radius is the primary radius shrunk by the split
depth; Y weights are recomputed at the Y angle. -/
def FilterMorpher.updateYWeights (m : FilterMorpher) : FilterMorpher :=
  let ay := wrapTwoPi (m.angle + m.split_angle)
  let ry := m.radius * (1 - m.split_depth)
  let w := FilterMorpher.computeWeights ay
  { m with angle_y := ay, radius_y := ry,
           w_lp_y := w.1, w_bp_y := w.2.1, w_hp_y := w.2.2.1, w_br_y := w.2.2.2 }

/-- `FilterMorpher::updateWeights` — recompute radius (clamped to 1), angle
(`atan2` shifted into `[0, 2π)`) and the primary weights from the stored
position, then refresh the Y-channel caches. -/
def FilterMorpher.updateWeights (m : FilterMorpher) : FilterMorpher :=
  let r := min (Real.sqrt (m.pos_x * m.pos_x + m.pos_y * m.pos_y)) 1
  let a0 := atan2 m.pos_y m.pos_x
  let a := if a0 < 0 then a0 + 2 * Real.pi else a0
  let w := FilterMorpher.computeWeights a
  FilterMorpher.updateYWeights
    { m with radius := r, angle := a,
             w_lp := w.1, w_bp := w.2.1, w_hp := w.2.2.1, w_br := w.2.2.2 }

/-- `FilterMorpher::setPosition` — rescale the point onto the unit disc when
its norm exceeds 1, store it, and recompute all cached values. -/
def FilterMorpher.setPosition (m : FilterMorpher) (x y : ℝ) : FilterMorpher :=
  let dist := Real.sqrt (x * x + y * y)
  let x1 := if dist > 1 then x / dist else x
  let y1 := if dist > 1 then y / dist else y
  FilterMorpher.updateWeights { m with pos_x := x1, pos_y := y1 }

/-- `FilterMorpher::setSplitAngle` — store the angle converted from degrees
to radians (no clamping) and refresh the Y caches. -/
def FilterMorpher.setSplitAngle (m : FilterMorpher) (degrees : ℝ) : FilterMorpher :=
  FilterMorpher.updateYWeights { m with split_angle := degrees * Real.pi / 180 }

/-- `FilterMorpher::setSplitDepth` — store the depth clamped to `[0, 1]` and
refresh the Y caches. -/
def FilterMorpher.setSplitDepth (m : FilterMorpher) (d : ℝ) : FilterMorpher :=
  FilterMorpher.updateYWeights { m with split_depth := stdClamp d 0 1 }

/-- `FilterMorpher::hasSplit`. -/
def FilterMorpher.hasSplit (m : FilterMorpher) : Prop :=
  |m.split_angle| > 0.01 ∨ m.split_depth > 0.01

/-- `FilterMorpher::applyWithWeights` — mix the four roles (BR = notch =
LP + HP) by the given weights and blend the mix against the allpass response
`LP + HP − BP` by the radius. -/
def FilterMorpher.applyWithWeights (lp bp hp r w_lp w_bp w_hp w_br : ℝ) : ℝ :=
  let notch := lp + hp
  let allpass := lp + hp - bp
  let filtered := w_lp * lp + w_bp * bp + w_hp * hp + w_br * notch
  (1 - r) * allpass + r * filtered

/-- `FilterMorpher::apply` — the primary (X) channel morph. -/
def FilterMorpher.apply (m : FilterMorpher) (lp bp hp : ℝ) : ℝ :=
  FilterMorpher.applyWithWeights lp bp hp m.radius m.w_lp m.w_bp m.w_hp m.w_br

/-- `FilterMorpher::applyXY` — X from the primary caches, Y from the
split-derived caches. -/
def FilterMorpher.applyXY (m : FilterMorpher) (lp bp hp : ℝ) : ℝ × ℝ :=
  (FilterMorpher.applyWithWeights lp bp hp m.radius m.w_lp m.w_bp m.w_hp m.w_br,
   FilterMorpher.applyWithWeights lp bp hp m.radius_y m.w_lp_y m.w_bp_y m.w_hp_y m.w_br_y)

/-- A `FilterMorpher` with the default member initializers of the source. -/
def morphInit : FilterMorpher :=
  { pos_x := 0, pos_y := 0, radius := 0, angle := 0,
    w_lp := 0.25, w_bp := 0.25, w_hp := 0.25, w_br := 0.25,
    split_angle := 0, split_depth := 0,
    angle_y := 0, radius_y := 0,
    w_lp_y := 0.25, w_bp_y := 0.25, w_hp_y := 0.25, w_br_y := 0.25 }

/-- A `FilterMorpher` state with radius 1 (for exercising the fully weighted
mix branch of `apply`). -/
def morphR1 : FilterMorpher :=
  { morphInit with radius := 1 }

/-- `dfl::fastTanh` (double overload) — input clamped to `[-5.5, 5.5]`, then
the Pade [7/6] approximant of `tanh`. -/
def fastTanh (x : ℝ) : ℝ :=
  let x1 := stdClamp x (-5.5) 5.5
  let x2 := x1 * x1
  (x1 * (135135 + x2 * (17325 + x2 * (378 + x2)))) /
    (135135 + x2 * (62370 + x2 * (3150 + x2 * 28)))

/-- `SineLUT::TABLE_SIZE`. -/
def SineLUT.TABLE_SIZE : ℕ := 16384

/-- The `SineLUT` table: entry `i` (for `i ≤ TABLE_SIZE`) holds
`sin(2π · i / TABLE_SIZE)`.  (`TWO_PI` is the source's 6.28318… literal,
modelled as `2π`.) -/
def SineLUT.table (i : ℕ) : ℝ :=
  Real.sin (2 * Real.pi * (i : ℝ) / (SineLUT.TABLE_SIZE : ℝ))

/-- `SineLUT::operator()` / `dfl::fastSin` — wrap the phase into `[0, 1)`,
scale by the table size, clamp just below the last entry, then linearly
interpolate between the two neighbouring table entries. -/
def fastSin (phase : ℝ) : ℝ :=
  let p := phase - (⌊phase⌋ : ℝ)
  let scaled := stdClamp (p * (SineLUT.TABLE_SIZE : ℝ)) 0
    ((SineLUT.TABLE_SIZE : ℝ) - 0.000000001)
  let index := (⌊scaled⌋).toNat
  let frac := scaled - (index : ℝ)
  SineLUT.table index + frac * (SineLUT.table (index + 1) - SineLUT.table index)

/-- `dfl::RPMOscillator` — recursive phase-modulation oscillator state. -/
structure RPMOscillator where
  sampleRate : ℝ
  sampleRateRec : ℝ
  freq : ℝ
  phase : ℝ
  increment : ℝ
  beta : ℝ
  exponent : ℤ
  state : ℝ
  lastOut : ℝ
  softClip : Bool

/-- `RPMOscillator::fastPow` — repeated multiplication for integer exponents
up to 4, falling back to the general power function. -/
def RPMOscillator.fastPow (base : ℝ) (exp : ℤ) : ℝ :=
  if exp = 1 then base
  else if exp = 2 then base * base
  else if exp = 3 then base * base * base
  else if exp = 4 then (base * base) * (base * base)
  else base ^ exp

/-- `RPMOscillator::process` — one sample with external phasor input: update
the one-pole averaged feedback state (optionally soft-clipped), phase-modulate
by `beta · state / 2π`, take the LUT sine, and optionally soft-clip the
output.  Returns the updated oscillator and the output sample. -/
def RPMOscillator.process (o : RPMOscillator) (phaseIn : ℝ) : RPMOscillator × ℝ :=
  let st0 := 0.5 * (o.state + RPMOscillator.fastPow o.lastOut o.exponent)
  let st := if o.softClip then fastTanh st0 else st0
  let modulatedPhase := phaseIn + (o.beta * st) / (2 * Real.pi)
  let out0 := fastSin modulatedPhase
  let out := if o.softClip then fastTanh out0 else out0
  ({ o with state := st, lastOut := out }, out)

/-- The phase wrap loop of `RPMOscillator::getSample`
(`while (phase ≥ 1.0) phase -= 1.0`): for any real input the loop terminates
and leaves `phase` unchanged when already below 1, otherwise reduces it by its
integer part. -/
def wrapPhaseDown (p : ℝ) : ℝ :=
  if 1 ≤ p then p - (⌊p⌋ : ℝ) else p

/-- `RPMOscillator::getSample` — process the internal phase, then advance it
by the increment with wrap-around. -/
def RPMOscillator.getSample (o : RPMOscillator) : RPMOscillator × ℝ :=
  let r := o.process o.phase
  ({ r.1 with phase := wrapPhaseDown (r.1.phase + r.1.increment) }, r.2)

/-- Oscillator state after `n` calls of `process` fed by the phasor stream
`phases`. -/
def RPMOscillator.runProcess (o : RPMOscillator) (phases : ℕ → ℝ) (n : ℕ) : RPMOscillator :=
  Nat.rec o (fun k s => (s.process (phases k)).1) n

/-- The `n`-th output sample of the `process` run. -/
def RPMOscillator.processOutputAt (o : RPMOscillator) (phases : ℕ → ℝ) (n : ℕ) : ℝ :=
  ((o.runProcess phases n).process (phases n)).2

/-- Oscillator state after `n` calls of `getSample`. -/
def RPMOscillator.runGetSample (o : RPMOscillator) (n : ℕ) : RPMOscillator :=
  Nat.rec o (fun _ s => s.getSample.1) n

/-- The `n`-th output sample of the `getSample` run. -/
def RPMOscillator.getSampleOutputAt (o : RPMOscillator) (n : ℕ) : ℝ :=
  (o.runGetSample n).getSample.2

/-- An `RPMOscillator` with the constructor's defaults except that soft
clipping is enabled (as `TestSignalGenerator` configures its oscillators). -/
def oscSoftClipInit : RPMOscillator :=
  { sampleRate := 44100, sampleRateRec := 1 / 44100, freq := 440,
    phase := 0, increment := 0, beta := 1, exponent := 1,
    state := 0, lastOut := 0, softClip := true }

/-- The per-sample gain ramp of `AudioPlayer::process`: move `current_gain_`
toward `target_gain` by at most `ramp_inc`, landing exactly on the target
instead of overshooting. -/
def gainRampStep (target_gain ramp_inc current : ℝ) : ℝ :=
  if current < target_gain then min target_gain (current + ramp_inc)
  else if current > target_gain then max target_gain (current - ramp_inc)
  else current

/-- `current_gain_` after `n` processed samples with a constant target, where
`ramp_inc = 1 / (0.050 · sample_rate)` as computed each callback. -/
def currentGainAt (target_gain ramp_inc g0 : ℝ) (n : ℕ) : ℝ :=
  Nat.rec g0 (fun _ g => gainRampStep target_gain ramp_inc g) n

end

/-- C5: `apply(lp, bp, hp)` equals
`(1 − radius)·(lp + hp − bp) + radius·(wLP·lp + wBP·bp + wHP·hp + wBR·(lp + hp))`
for every input triple and every morph state; in particular at `radius = 0` it
returns the allpass response `lp + hp − bp` and at `radius = 1` the fully
weighted mix. -/
theorem morph_apply_blend (m : FilterMorpher) (lp bp hp : ℝ) :
    m.apply lp bp hp
      = (1 - m.radius) * (lp + hp - bp)
        + m.radius * (m.w_lp * lp + m.w_bp * bp + m.w_hp * hp + m.w_br * (lp + hp))
    ∧ (m.radius = 0 → m.apply lp bp hp = lp + hp - bp)
    ∧ (m.radius = 1 →
        m.apply lp bp hp = m.w_lp * lp + m.w_bp * bp + m.w_hp * hp + m.w_br * (lp + hp)) := by
  have base : m.apply lp bp hp
      = (1 - m.radius) * (lp + hp - bp)
        + m.radius * (m.w_lp * lp + m.w_bp * bp + m.w_hp * hp + m.w_br * (lp + hp)) := by
    unfold FilterMorpher.apply FilterMorpher.applyWithWeights
    ring
  refine ⟨base, fun h => ?_, fun h => ?_⟩
  · rw [base, h]; ring
  · rw [base, h]; ring

/-- Witness for `morph_apply_blend`: at radius 0 the default morpher returns
the allpass response on the inputs `(1, 2, 3)`, and at radius 1 the morpher
`morphR1` returns the weighted mix. -/
theorem morph_apply_blend_witness :
    morphInit.radius = 0 ∧ morphInit.apply 1 2 3 = 1 + 3 - 2
    ∧ morphR1.radius = 1
    ∧ morphR1.apply 1 2 3
        = morphR1.w_lp * 1 + morphR1.w_bp * 2 + morphR1.w_hp * 3 + morphR1.w_br * (1 + 3) :=
  ⟨rfl, (morph_apply_blend morphInit 1 2 3).2.1 rfl, rfl,
   (morph_apply_blend morphR1 1 2 3).2.2 rfl⟩

/-- C8 counterexample: calling the pre-gain setter with 5 leaves the filter's
pre-gain at 5, outside the documented `[0, 4]` range — the setter does not
clamp. -/
theorem setPreGain_not_clamped_cex :
    (audioPlayerFiltersInit.setPreGain 5).svf.pre_gain = 5
    ∧ ¬ (audioPlayerFiltersInit.setPreGain 5).svf.pre_gain ∈ Set.Icc (0 : ℝ) 4 := by
  constructor
  · rfl
  · show ¬ (5 : ℝ) ∈ Set.Icc (0 : ℝ) 4
    simp [Set.mem_Icc]
    norm_num

/-- C8 (amended): the pre-gain setter stores its input unchanged into the
player's atomic, the filter and the router — out-of-range input is kept
as-is, not clamped to `[0, 4]` (the range is only enforced by certain UI call
sites). -/
theorem setPreGain_stores_unclamped (p : AudioPlayerFilters) (v : ℝ) :
    (p.setPreGain v).pre_gain = v
    ∧ (p.setPreGain v).svf.pre_gain = v
    ∧ (p.setPreGain v).stereo_router.svf.pre_gain = v :=
  ⟨rfl, rfl, rfl⟩

theorem gainRampStep_props (t inc g : ℝ) (hinc : 0 ≤ inc) :
    |gainRampStep t inc g - g| ≤ inc
    ∧ |gainRampStep t inc g - t| ≤ |g - t|
    ∧ |gainRampStep t inc g - t| ≤ max 0 (|g - t| - inc) := by
  unfold gainRampStep
  rcases lt_trichotomy g t with hgt | hgt | hgt
  · rw [if_pos hgt]
    have habs : |g - t| = t - g := by rw [abs_of_neg (by linarith : g - t < 0)]; ring
    rcases le_total t (g + inc) with hc | hc
    · rw [min_eq_left hc]
      refine ⟨abs_le.mpr ⟨by linarith, by linarith⟩, ?_, ?_⟩
      · rw [sub_self, abs_zero]; exact abs_nonneg _
      · rw [sub_self, abs_zero]; exact le_max_left _ _
    · rw [min_eq_right hc]
      have h2 : |g + inc - t| = t - g - inc := by
        rw [abs_of_nonpos (by linarith : g + inc - t ≤ 0)]; ring
      refine ⟨abs_le.mpr ⟨by linarith, by linarith⟩, ?_, ?_⟩
      · rw [h2, habs]; linarith
      · rw [h2, habs]; exact le_max_of_le_right (by linarith)
  · rw [if_neg (by linarith), if_neg (by linarith)]
    refine ⟨by rw [sub_self, abs_zero]; exact hinc, le_rfl, ?_⟩
    rw [hgt, sub_self, abs_zero]
    exact le_max_left _ _
  · rw [if_neg (by linarith), if_pos hgt]
    have habs : |g - t| = g - t := abs_of_pos (by linarith : 0 < g - t)
    rcases le_total (g - inc) t with hc | hc
    · rw [max_eq_left hc]
      refine ⟨abs_le.mpr ⟨by linarith, by linarith⟩, ?_, ?_⟩
      · rw [sub_self, abs_zero]; exact abs_nonneg _
      · rw [sub_self, abs_zero]; exact le_max_left _ _
    · rw [max_eq_right hc]
      have h2 : |g - inc - t| = g - t - inc := by
        rw [abs_of_nonneg (by linarith : 0 ≤ g - inc - t)]; ring
      refine ⟨abs_le.mpr ⟨by linarith, by linarith⟩, ?_, ?_⟩
      · rw [h2, habs]; linarith
      · rw [h2, habs]; exact le_max_of_le_right (by linarith)

theorem currentGainAt_succ (t inc g0 : ℝ) (n : ℕ) :
    currentGainAt t inc g0 (n + 1) = gainRampStep t inc (currentGainAt t inc g0 n) := rfl

theorem currentGainAt_dist (t inc g0 : ℝ) (hinc : 0 ≤ inc) (n : ℕ) :
    |currentGainAt t inc g0 n - t| ≤ max 0 (|g0 - t| - n * inc) := by
  induction n with
  | zero =>
    simp only [currentGainAt, Nat.cast_zero, zero_mul, sub_zero]
    exact le_max_of_le_right le_rfl
  | succ n ih =>
    rw [currentGainAt_succ]
    have hstep := (gainRampStep_props t inc (currentGainAt t inc g0 n) hinc).2.2
    refine hstep.trans (max_le (le_max_left _ _) ?_)
    have h1 : |currentGainAt t inc g0 n - t| - inc ≤ max 0 (|g0 - t| - n * inc) - inc := by
      linarith [ih]
    refine h1.trans ?_
    rcases le_total (|g0 - t| - n * inc) 0 with hc | hc
    · rw [max_eq_left hc]
      refine le_trans (by linarith) (le_max_left 0 (|g0 - t| - (n + 1 : ℕ) * inc))
    · rw [max_eq_right hc]
      refine le_trans (le_of_eq ?_) (le_max_right 0 _)
      push_cast
      ring

/-- C9: with per-callback increment `1/(0.050·sample_rate)`, the current gain
moves by at most one increment per sample and never moves away from a
constant target; for a target and a start in `[0, 1]` it reaches the target
exactly within `⌈0.050·sample_rate⌉` processed samples (≈ 50 ms). -/
theorem gain_ramp_converges (sample_rate target_gain g0 : ℝ)
    (hsr : 0 < sample_rate) (ht0 : 0 ≤ target_gain) (ht1 : target_gain ≤ 1)
    (hg0 : 0 ≤ g0) (hg1 : g0 ≤ 1) :
    (∀ n,
      |currentGainAt target_gain (1 / (0.050 * sample_rate)) g0 (n + 1)
        - currentGainAt target_gain (1 / (0.050 * sample_rate)) g0 n|
          ≤ 1 / (0.050 * sample_rate)
      ∧ |currentGainAt target_gain (1 / (0.050 * sample_rate)) g0 (n + 1) - target_gain|
          ≤ |currentGainAt target_gain (1 / (0.050 * sample_rate)) g0 n - target_gain|)
    ∧ currentGainAt target_gain (1 / (0.050 * sample_rate)) g0
        ⌈(0.050 : ℝ) * sample_rate⌉₊ = target_gain := by
  have hinc : 0 < 1 / (0.050 * sample_rate) := by positivity
  constructor
  · intro n
    have h := gainRampStep_props target_gain (1 / (0.050 * sample_rate))
      (currentGainAt target_gain (1 / (0.050 * sample_rate)) g0 n) hinc.le
    exact ⟨by rw [currentGainAt_succ]; exact h.1, by rw [currentGainAt_succ]; exact h.2.1⟩
  · have hd := currentGainAt_dist target_gain (1 / (0.050 * sample_rate)) g0 hinc.le
      ⌈(0.050 : ℝ) * sample_rate⌉₊
    have hceil : (0.050 : ℝ) * sample_rate ≤ (⌈(0.050 : ℝ) * sample_rate⌉₊ : ℝ) :=
      Nat.le_ceil _
    have hone : (1 : ℝ) ≤ (⌈(0.050 : ℝ) * sample_rate⌉₊ : ℝ) * (1 / (0.050 * sample_rate)) := by
      have h1 : (0.050 * sample_rate) * (1 / (0.050 * sample_rate)) = 1 := by
        field_simp
      calc (1 : ℝ) = (0.050 * sample_rate) * (1 / (0.050 * sample_rate)) := h1.symm
        _ ≤ _ := mul_le_mul_of_nonneg_right hceil (by positivity)
    have hdist1 : |g0 - target_gain| ≤ 1 := abs_le.mpr ⟨by linarith, by linarith⟩
    have hzero : max 0 (|g0 - target_gain|
        - (⌈(0.050 : ℝ) * sample_rate⌉₊ : ℝ) * (1 / (0.050 * sample_rate))) = 0 :=
      max_eq_left (by linarith)
    rw [hzero] at hd
    exact sub_eq_zero.mp (abs_eq_zero.mp (le_antisymm hd (abs_nonneg _)))

/-- Witness for `gain_ramp_converges`: at sample rate 20 the increment is 1,
and from gain 0 the target 1 is reached in `⌈0.050·20⌉ = 1` step. -/
theorem gain_ramp_converges_witness :
    currentGainAt 1 (1 / (0.050 * 20)) 0 ⌈(0.050 : ℝ) * 20⌉₊ = 1 :=
  (gain_ramp_converges 20 1 0 (by norm_num) (by norm_num) (by norm_num)
    (by norm_num) (by norm_num)).2

theorem stdClamp_mem {v lo hi : ℝ} (h : lo ≤ hi) :
    lo ≤ stdClamp v lo hi ∧ stdClamp v lo hi ≤ hi := by
  unfold stdClamp
  split_ifs with h1 h2
  · exact ⟨le_rfl, h⟩
  · exact ⟨h, le_rfl⟩
  · exact ⟨le_of_not_lt h1, le_of_not_lt h2⟩

theorem wrapTwoPi_mem (x : ℝ) : 0 ≤ wrapTwoPi x ∧ wrapTwoPi x < 2 * Real.pi := by
  have hc : (0 : ℝ) < 2 * Real.pi := by positivity
  have h1 : ((⌊x / (2 * Real.pi)⌋ : ℝ)) ≤ x / (2 * Real.pi) := Int.floor_le _
  have h2 : x / (2 * Real.pi) < (⌊x / (2 * Real.pi)⌋ : ℝ) + 1 := Int.lt_floor_add_one _
  have e1 : ((⌊x / (2 * Real.pi)⌋ : ℝ)) * (2 * Real.pi) ≤ x := (le_div_iff hc).mp h1
  have e2 : x < ((⌊x / (2 * Real.pi)⌋ : ℝ) + 1) * (2 * Real.pi) := (div_lt_iff hc).mp h2
  unfold wrapTwoPi
  constructor
  · nlinarith [e1]
  · nlinarith [e2]

theorem wrapTwoPi_eq_self {x : ℝ} (h0 : 0 ≤ x) (h1 : x < 2 * Real.pi) : wrapTwoPi x = x := by
  have hc : (0 : ℝ) < 2 * Real.pi := by positivity
  have hf : ⌊x / (2 * Real.pi)⌋ = 0 := by
    rw [Int.floor_eq_zero_iff]
    exact ⟨div_nonneg h0 hc.le, (div_lt_one hc).mpr h1⟩
  unfold wrapTwoPi
  rw [hf]
  push_cast
  ring

theorem wrapTwoPi_sub_int (x : ℝ) : ∃ k : ℤ, wrapTwoPi x = x - 2 * Real.pi * (k : ℝ) :=
  ⟨⌊x / (2 * Real.pi)⌋, rfl⟩

theorem angle_adjust_mem (a0 : ℝ) (hlow : -Real.pi < a0) (hhigh : a0 ≤ Real.pi) :
    0 ≤ (if a0 < 0 then a0 + 2 * Real.pi else a0)
    ∧ (if a0 < 0 then a0 + 2 * Real.pi else a0) < 2 * Real.pi := by
  have hpi := Real.pi_pos
  split_ifs with h
  · exact ⟨by linarith, by linarith⟩
  · exact ⟨le_of_not_lt h, by linarith⟩

theorem updateWeights_angle_mem (m : FilterMorpher) :
    0 ≤ m.updateWeights.angle ∧ m.updateWeights.angle < 2 * Real.pi := by
  unfold FilterMorpher.updateWeights FilterMorpher.updateYWeights
  exact angle_adjust_mem (atan2 m.pos_y m.pos_x)
    (Complex.neg_pi_lt_arg _) (Complex.arg_le_pi _)

theorem setPosition_angle_mem (m : FilterMorpher) (x y : ℝ) :
    0 ≤ (m.setPosition x y).angle ∧ (m.setPosition x y).angle < 2 * Real.pi := by
  unfold FilterMorpher.setPosition
  exact updateWeights_angle_mem _

theorem smoothWeight_nonneg (c a : ℝ) : 0 ≤ FilterMorpher.smoothWeight c a := by
  unfold FilterMorpher.smoothWeight
  exact le_max_left 0 _

theorem smoothWeight_ge_half (c a : ℝ) (h : |a - c| ≤ 1 / 8) :
    1 / 2 ≤ FilterMorpher.smoothWeight c a := by
  have habs : (0 : ℝ) ≤ |a - c| := abs_nonneg _
  have hd0 : ¬ |a - c| > 0.5 := by push_neg; calc |a - c| ≤ 1 / 8 := h
                                      _ ≤ 0.5 := by norm_num
  unfold FilterMorpher.smoothWeight
  dsimp only
  rw [if_neg hd0]
  have hmin : min (|a - c| * 4) 1 = |a - c| * 4 :=
    min_eq_left (by linarith)
  rw [hmin]
  have htheta0 : 0 ≤ |a - c| * 4 * (Real.pi * 0.5) := by positivity
  have htheta1 : |a - c| * 4 * (Real.pi * 0.5) ≤ Real.pi / 4 := by
    have h4 : |a - c| * 4 ≤ 1 / 2 := by linarith
    calc |a - c| * 4 * (Real.pi * 0.5) ≤ 1 / 2 * (Real.pi * 0.5) :=
          mul_le_mul_of_nonneg_right h4 (by positivity)
      _ = Real.pi / 4 := by ring
  have hcos : Real.cos (Real.pi / 4) ≤ Real.cos (|a - c| * 4 * (Real.pi * 0.5)) := by
    apply Real.cos_le_cos_of_nonneg_of_le_pi htheta0
    · linarith [Real.pi_pos]
    · exact htheta1
  rw [Real.cos_pi_div_four] at hcos
  have hsqrt2 : Real.sqrt 2 * Real.sqrt 2 = 2 := Real.mul_self_sqrt (by norm_num)
  have hhalf : Real.sqrt 2 / 2 * (Real.sqrt 2 / 2) = 1 / 2 := by
    rw [div_mul_div_comm, hsqrt2]; norm_num
  have hpos : (0 : ℝ) ≤ Real.sqrt 2 / 2 := by positivity
  have hsq : Real.sqrt 2 / 2 * (Real.sqrt 2 / 2)
      ≤ Real.cos (|a - c| * 4 * (Real.pi * 0.5)) * Real.cos (|a - c| * 4 * (Real.pi * 0.5)) :=
    mul_le_mul hcos hcos hpos (le_trans hpos hcos)
  calc (1 : ℝ) / 2 = Real.sqrt 2 / 2 * (Real.sqrt 2 / 2) := hhalf.symm
    _ ≤ _ := hsq
    _ ≤ _ := le_max_right 0 _

theorem weight_normalize_sum (A B H D : ℝ) (hA : 0 ≤ A) (hB : 0 ≤ B) (hH : 0 ≤ H)
    (hD : 0 ≤ D) (hS : 1 / 2 ≤ A + B + H + D) :
    |(A / (A + B + H + D + 0.0001) + B / (A + B + H + D + 0.0001)
      + H / (A + B + H + D + 0.0001) + D / (A + B + H + D + 0.0001)) - 1| ≤ 1 / 1000 := by
  have heps : (0 : ℝ) < 0.0001 := by norm_num
  have hsum : (0 : ℝ) < A + B + H + D + 0.0001 := by linarith
  rw [div_add_div_same, div_add_div_same, div_add_div_same]
  have heq : (A + B + H + D) / (A + B + H + D + 0.0001) - 1
      = -(0.0001 / (A + B + H + D + 0.0001)) := by
    field_simp
  rw [heq, abs_neg, abs_of_nonneg (by positivity)]
  rw [div_le_iff hsum]
  nlinarith

theorem computeWeights_sum (angle : ℝ) (h0 : 0 ≤ angle) (h1 : angle < 2 * Real.pi) :
    |((FilterMorpher.computeWeights angle).1 + (FilterMorpher.computeWeights angle).2.1
      + (FilterMorpher.computeWeights angle).2.2.1
      + (FilterMorpher.computeWeights angle).2.2.2) - 1| ≤ 1 / 1000 := by
  have hc : (0 : ℝ) < 2 * Real.pi := by positivity
  have ha0 : 0 ≤ angle / (2 * Real.pi) := div_nonneg h0 hc.le
  have ha1 : angle / (2 * Real.pi) < 1 := (div_lt_one hc).mpr h1
  have hgoal : FilterMorpher.computeWeights angle
      = (FilterMorpher.smoothWeight 0.5 (angle / (2 * Real.pi))
           / (FilterMorpher.smoothWeight 0.5 (angle / (2 * Real.pi))
              + FilterMorpher.smoothWeight 0.25 (angle / (2 * Real.pi))
              + max (FilterMorpher.smoothWeight 0 (angle / (2 * Real.pi)))
                  (FilterMorpher.smoothWeight 1 (angle / (2 * Real.pi)))
              + FilterMorpher.smoothWeight 0.75 (angle / (2 * Real.pi)) + 0.0001),
         FilterMorpher.smoothWeight 0.25 (angle / (2 * Real.pi))
           / (FilterMorpher.smoothWeight 0.5 (angle / (2 * Real.pi))
              + FilterMorpher.smoothWeight 0.25 (angle / (2 * Real.pi))
              + max (FilterMorpher.smoothWeight 0 (angle / (2 * Real.pi)))
                  (FilterMorpher.smoothWeight 1 (angle / (2 * Real.pi)))
              + FilterMorpher.smoothWeight 0.75 (angle / (2 * Real.pi)) + 0.0001),
         max (FilterMorpher.smoothWeight 0 (angle / (2 * Real.pi)))
             (FilterMorpher.smoothWeight 1 (angle / (2 * Real.pi)))
           / (FilterMorpher.smoothWeight 0.5 (angle / (2 * Real.pi))
              + FilterMorpher.smoothWeight 0.25 (angle / (2 * Real.pi))
              + max (FilterMorpher.smoothWeight 0 (angle / (2 * Real.pi)))
                  (FilterMorpher.smoothWeight 1 (angle / (2 * Real.pi)))
              + FilterMorpher.smoothWeight 0.75 (angle / (2 * Real.pi)) + 0.0001),
         FilterMorpher.smoothWeight 0.75 (angle / (2 * Real.pi))
           / (FilterMorpher.smoothWeight 0.5 (angle / (2 * Real.pi))
              + FilterMorpher.smoothWeight 0.25 (angle / (2 * Real.pi))
              + max (FilterMorpher.smoothWeight 0 (angle / (2 * Real.pi)))
                  (FilterMorpher.smoothWeight 1 (angle / (2 * Real.pi)))
              + FilterMorpher.smoothWeight 0.75 (angle / (2 * Real.pi)) + 0.0001)) := rfl
  rw [hgoal]
  have hH0 : 0 ≤ max (FilterMorpher.smoothWeight 0 (angle / (2 * Real.pi)))
      (FilterMorpher.smoothWeight 1 (angle / (2 * Real.pi))) :=
    le_trans (smoothWeight_nonneg 0 _) (le_max_left _ _)
  have hS : 1 / 2 ≤ FilterMorpher.smoothWeight 0.5 (angle / (2 * Real.pi))
      + FilterMorpher.smoothWeight 0.25 (angle / (2 * Real.pi))
      + max (FilterMorpher.smoothWeight 0 (angle / (2 * Real.pi)))
          (FilterMorpher.smoothWeight 1 (angle / (2 * Real.pi)))
      + FilterMorpher.smoothWeight 0.75 (angle / (2 * Real.pi)) := by
    have hA := smoothWeight_nonneg 0.5 (angle / (2 * Real.pi))
    have hB := smoothWeight_nonneg 0.25 (angle / (2 * Real.pi))
    have hD := smoothWeight_nonneg 0.75 (angle / (2 * Real.pi))
    rcases le_or_lt (angle / (2 * Real.pi)) (1 / 8) with hr | hr
    · have hh := smoothWeight_ge_half 0 (angle / (2 * Real.pi))
        (abs_le.mpr ⟨by linarith, by linarith⟩)
      have : 1 / 2 ≤ max (FilterMorpher.smoothWeight 0 (angle / (2 * Real.pi)))
          (FilterMorpher.smoothWeight 1 (angle / (2 * Real.pi))) :=
        le_trans hh (le_max_left _ _)
      linarith
    · rcases le_or_lt (angle / (2 * Real.pi)) (3 / 8) with hr2 | hr2
      · have hb := smoothWeight_ge_half 0.25 (angle / (2 * Real.pi))
          (abs_le.mpr ⟨by norm_num; linarith, by norm_num; linarith⟩)
        linarith
      · rcases le_or_lt (angle / (2 * Real.pi)) (5 / 8) with hr3 | hr3
        · have ha := smoothWeight_ge_half 0.5 (angle / (2 * Real.pi))
            (abs_le.mpr ⟨by norm_num; linarith, by norm_num; linarith⟩)
          linarith
        · rcases le_or_lt (angle / (2 * Real.pi)) (7 / 8) with hr4 | hr4
          · have hd := smoothWeight_ge_half 0.75 (angle / (2 * Real.pi))
              (abs_le.mpr ⟨by norm_num; linarith, by norm_num; linarith⟩)
            linarith
          · have hh := smoothWeight_ge_half 1 (angle / (2 * Real.pi))
              (abs_le.mpr ⟨by linarith, by linarith⟩)
            have : 1 / 2 ≤ max (FilterMorpher.smoothWeight 0 (angle / (2 * Real.pi)))
                (FilterMorpher.smoothWeight 1 (angle / (2 * Real.pi))) :=
              le_trans hh (le_max_right _ _)
            linarith
  exact weight_normalize_sum _ _ _ _ (smoothWeight_nonneg 0.5 _) (smoothWeight_nonneg 0.25 _)
    hH0 (smoothWeight_nonneg 0.75 _) hS

/-- C4: after `setPosition(x, y)` for any reals `x, y` (the point is rescaled
onto the unit disc when its norm exceeds 1), the four cached crossfade
weights sum to 1 within `1/1000`. -/
theorem morph_setPosition_weight_sum (m : FilterMorpher) (x y : ℝ) :
    |((m.setPosition x y).w_lp + (m.setPosition x y).w_bp + (m.setPosition x y).w_hp
      + (m.setPosition x y).w_br) - 1| ≤ 1 / 1000 := by
  obtain ⟨h0, h1⟩ := setPosition_angle_mem m x y
  have hw : (m.setPosition x y).w_lp
        = (FilterMorpher.computeWeights ((m.setPosition x y).angle)).1
      ∧ (m.setPosition x y).w_bp
        = (FilterMorpher.computeWeights ((m.setPosition x y).angle)).2.1
      ∧ (m.setPosition x y).w_hp
        = (FilterMorpher.computeWeights ((m.setPosition x y).angle)).2.2.1
      ∧ (m.setPosition x y).w_br
        = (FilterMorpher.computeWeights ((m.setPosition x y).angle)).2.2.2 :=
    ⟨rfl, rfl, rfl, rfl⟩
  rw [hw.1, hw.2.1, hw.2.2.1, hw.2.2.2]
  exact computeWeights_sum _ h0 h1

theorem setPosition_caches (b : FilterMorpher) (x y : ℝ) :
    (b.setPosition x y).split_angle = b.split_angle
    ∧ (b.setPosition x y).split_depth = b.split_depth
    ∧ (b.setPosition x y).radius_y = (b.setPosition x y).radius * (1 - b.split_depth)
    ∧ (b.setPosition x y).angle_y = wrapTwoPi ((b.setPosition x y).angle + b.split_angle)
    ∧ (b.setPosition x y).w_lp
        = (FilterMorpher.computeWeights ((b.setPosition x y).angle)).1
    ∧ (b.setPosition x y).w_bp
        = (FilterMorpher.computeWeights ((b.setPosition x y).angle)).2.1
    ∧ (b.setPosition x y).w_hp
        = (FilterMorpher.computeWeights ((b.setPosition x y).angle)).2.2.1
    ∧ (b.setPosition x y).w_br
        = (FilterMorpher.computeWeights ((b.setPosition x y).angle)).2.2.2
    ∧ (b.setPosition x y).w_lp_y
        = (FilterMorpher.computeWeights ((b.setPosition x y).angle_y)).1
    ∧ (b.setPosition x y).w_bp_y
        = (FilterMorpher.computeWeights ((b.setPosition x y).angle_y)).2.1
    ∧ (b.setPosition x y).w_hp_y
        = (FilterMorpher.computeWeights ((b.setPosition x y).angle_y)).2.2.1
    ∧ (b.setPosition x y).w_br_y
        = (FilterMorpher.computeWeights ((b.setPosition x y).angle_y)).2.2.2 :=
  ⟨rfl, rfl, rfl, rfl, rfl, rfl, rfl, rfl, rfl, rfl, rfl, rfl⟩

/-- C6: after `setSplitAngle(θ degrees)` and `setSplitDepth(d)` (with `d`
clamped to `[0, 1]`), for every primary position set via `setPosition` the
derived Y state satisfies `radius_y = radius · (1 − d)` and
`angle_y = angle + θ·π/180` wrapped into `[0, 2π)`. -/
theorem morph_split_radius_angle (m : FilterMorpher) (x y theta d : ℝ) :
    (((m.setPosition x y).setSplitAngle theta).setSplitDepth d).radius_y
      = (((m.setPosition x y).setSplitAngle theta).setSplitDepth d).radius
        * (1 - stdClamp d 0 1)
    ∧ 0 ≤ (((m.setPosition x y).setSplitAngle theta).setSplitDepth d).angle_y
    ∧ (((m.setPosition x y).setSplitAngle theta).setSplitDepth d).angle_y < 2 * Real.pi
    ∧ ∃ k : ℤ,
        (((m.setPosition x y).setSplitAngle theta).setSplitDepth d).angle_y
          = (((m.setPosition x y).setSplitAngle theta).setSplitDepth d).angle
            + theta * Real.pi / 180 - 2 * Real.pi * (k : ℝ) :=
  ⟨rfl,
   (wrapTwoPi_mem ((((m.setPosition x y).setSplitAngle theta).setSplitDepth d).angle
      + theta * Real.pi / 180)).1,
   (wrapTwoPi_mem ((((m.setPosition x y).setSplitAngle theta).setSplitDepth d).angle
      + theta * Real.pi / 180)).2,
   wrapTwoPi_sub_int ((((m.setPosition x y).setSplitAngle theta).setSplitDepth d).angle
      + theta * Real.pi / 180)⟩

/-- C10: with `splitAngle = 0` and `splitDepth = 0` the Y caches coincide with
the primary ones, so `applyXY` returns two identical channels, each equal to
`apply`, for every input triple and every primary position. -/
theorem morph_applyXY_no_split (x y lp bp hp : ℝ) :
    (((morphInit.setSplitAngle 0).setSplitDepth 0).setPosition x y).applyXY lp bp hp
      = ((((morphInit.setSplitAngle 0).setSplitDepth 0).setPosition x y).apply lp bp hp,
         (((morphInit.setSplitAngle 0).setSplitDepth 0).setPosition x y).apply lp bp hp) := by
  obtain ⟨hA0, hA1⟩ := setPosition_angle_mem ((morphInit.setSplitAngle 0).setSplitDepth 0) x y
  obtain ⟨hsa, hsd, hry, hay, hw1, hw2, hw3, hw4, hy1, hy2, hy3, hy4⟩ :=
    setPosition_caches ((morphInit.setSplitAngle 0).setSplitDepth 0) x y
  have hBsa : ((morphInit.setSplitAngle 0).setSplitDepth 0).split_angle = 0 := by
    show (0 : ℝ) * Real.pi / 180 = 0
    norm_num
  have hBsd : ((morphInit.setSplitAngle 0).setSplitDepth 0).split_depth = 0 := by
    show stdClamp 0 0 1 = (0 : ℝ)
    norm_num [stdClamp]
  rw [hBsd] at hry
  rw [hBsa] at hay
  rw [add_zero] at hay
  rw [wrapTwoPi_eq_self hA0 hA1] at hay
  have hry2 : (((morphInit.setSplitAngle 0).setSplitDepth 0).setPosition x y).radius_y
      = (((morphInit.setSplitAngle 0).setSplitDepth 0).setPosition x y).radius := by
    rw [hry]; ring
  rw [hay] at hy1 hy2 hy3 hy4
  have he1 := hy1.trans hw1.symm
  have he2 := hy2.trans hw2.symm
  have he3 := hy3.trans hw3.symm
  have he4 := hy4.trans hw4.symm
  have hXY : (((morphInit.setSplitAngle 0).setSplitDepth 0).setPosition x y).applyXY lp bp hp
      = ((((morphInit.setSplitAngle 0).setSplitDepth 0).setPosition x y).apply lp bp hp,
         FilterMorpher.applyWithWeights lp bp hp
           (((morphInit.setSplitAngle 0).setSplitDepth 0).setPosition x y).radius_y
           (((morphInit.setSplitAngle 0).setSplitDepth 0).setPosition x y).w_lp_y
           (((morphInit.setSplitAngle 0).setSplitDepth 0).setPosition x y).w_bp_y
           (((morphInit.setSplitAngle 0).setSplitDepth 0).setPosition x y).w_hp_y
           (((morphInit.setSplitAngle 0).setSplitDepth 0).setPosition x y).w_br_y) := rfl
  rw [hXY, hry2, he1, he2, he3, he4]
  rfl

theorem lerp_abs_le_one (t0 t1 f : ℝ) (h0 : |t0| ≤ 1) (h1 : |t1| ≤ 1)
    (hf0 : 0 ≤ f) (hf1 : f ≤ 1) : |t0 + f * (t1 - t0)| ≤ 1 := by
  obtain ⟨h0l, h0r⟩ := abs_le.mp h0
  obtain ⟨h1l, h1r⟩ := abs_le.mp h1
  refine abs_le.mpr ⟨?_, ?_⟩ <;> nlinarith

theorem sineLUT_table_abs (i : ℕ) : |SineLUT.table i| ≤ 1 := by
  unfold SineLUT.table
  exact abs_le.mpr ⟨Real.neg_one_le_sin _, Real.sin_le_one _⟩

theorem fastSin_abs_le_one (phase : ℝ) : |fastSin phase| ≤ 1 := by
  unfold fastSin
  dsimp only
  set s := stdClamp ((phase - (⌊phase⌋ : ℝ)) * (SineLUT.TABLE_SIZE : ℝ)) 0
    ((SineLUT.TABLE_SIZE : ℝ) - 0.000000001) with hs
  have hs0 : 0 ≤ s := by
    rw [hs]
    refine (stdClamp_mem ?_).1
    norm_num [SineLUT.TABLE_SIZE]
  have hii : ((⌊s⌋.toNat : ℕ) : ℝ) = ((⌊s⌋ : ℤ) : ℝ) := by
    exact_mod_cast congrArg (fun z : ℤ => (z : ℝ)) (Int.toNat_of_nonneg (Int.floor_nonneg.mpr hs0))
  apply lerp_abs_le_one
  · exact sineLUT_table_abs _
  · exact sineLUT_table_abs _
  · rw [hii]
    exact sub_nonneg.mpr (Int.floor_le s)
  · rw [hii]
    have := Int.lt_floor_add_one s
    linarith

theorem fastTanh_abs_le_one {x : ℝ} (h : |x| ≤ 1) : |fastTanh x| ≤ 1 := by
  obtain ⟨hl, hr⟩ := abs_le.mp h
  have h2 : (0 : ℝ) ≤ x ^ 2 := sq_nonneg x
  have h4 : (0 : ℝ) ≤ x ^ 4 := by positivity
  have h6 : (0 : ℝ) ≤ x ^ 6 := by positivity
  unfold fastTanh
  dsimp only
  have hcl : stdClamp x (-5.5) 5.5 = x := by
    unfold stdClamp
    rw [if_neg (by linarith), if_neg (by linarith)]
  rw [hcl]
  have hQ : (0 : ℝ) < 135135 + x * x * (62370 + x * x * (3150 + x * x * 28)) := by
    nlinarith [h2, h4, h6]
  have hP : (0 : ℝ) ≤ 135135 + x * x * (17325 + x * x * (378 + x * x)) := by
    nlinarith [h2, h4, h6]
  rw [abs_div, abs_of_pos hQ, div_le_one hQ]
  calc |x * (135135 + x * x * (17325 + x * x * (378 + x * x)))|
      = |x| * (135135 + x * x * (17325 + x * x * (378 + x * x))) := by
        rw [abs_mul, abs_of_nonneg hP]
    _ ≤ 1 * (135135 + x * x * (17325 + x * x * (378 + x * x))) :=
        mul_le_mul_of_nonneg_right h hP
    _ ≤ 135135 + x * x * (62370 + x * x * (3150 + x * x * 28)) := by
        nlinarith [h2, h4, h6]

theorem process_output_abs (o : RPMOscillator) (h : o.softClip = true) (phaseIn : ℝ) :
    |(o.process phaseIn).2| ≤ 1 := by
  unfold RPMOscillator.process
  simp only [h, if_true]
  exact fastTanh_abs_le_one (fastSin_abs_le_one _)

theorem runProcess_softClip (o : RPMOscillator) (phases : ℕ → ℝ) (n : ℕ) :
    (o.runProcess phases n).softClip = o.softClip := by
  induction n with
  | zero => rfl
  | succ n ih =>
    show ((o.runProcess phases n).process (phases n)).1.softClip = _
    rw [← ih]
    rfl

theorem runGetSample_softClip (o : RPMOscillator) (n : ℕ) :
    (o.runGetSample n).softClip = o.softClip := by
  induction n with
  | zero => rfl
  | succ n ih =>
    show ((o.runGetSample n).getSample).1.softClip = _
    rw [← ih]
    rfl

/-- C7: with soft clipping enabled, for every `beta` in `[-10, 50]`, every
exponent in `{1, 2, 3, 4}` and every phasor input stream, every output sample
of the recursive phase-modulation oscillator (`process`, and `getSample` with
the internal phase accumulator) satisfies `|output| ≤ 1`, at every sample
index — in particular for runs of 100000 samples and longer. -/
theorem oscillator_softclip_bounded (o : RPMOscillator) (phases : ℕ → ℝ) (n : ℕ)
    (hclip : o.softClip = true) (hb0 : -10 ≤ o.beta) (hb1 : o.beta ≤ 50)
    (hexp : o.exponent = 1 ∨ o.exponent = 2 ∨ o.exponent = 3 ∨ o.exponent = 4) :
    |o.processOutputAt phases n| ≤ 1 ∧ |o.getSampleOutputAt n| ≤ 1 := by
  constructor
  · exact process_output_abs _ (by rw [runProcess_softClip]; exact hclip) _
  · show |((o.runGetSample n).process (o.runGetSample n).phase).2| ≤ 1
    exact process_output_abs _ (by rw [runGetSample_softClip]; exact hclip) _

/-- Witness for `oscillator_softclip_bounded`: the soft-clipped default
oscillator (beta 1, exponent 1) produces bounded output at sample 100000 of
both run styles. -/
theorem oscillator_softclip_bounded_witness :
    |oscSoftClipInit.processOutputAt (fun _ => 0) 100000| ≤ 1
    ∧ |oscSoftClipInit.getSampleOutputAt 100000| ≤ 1 :=
  oscillator_softclip_bounded oscSoftClipInit (fun _ => 0) 100000 rfl
    (by norm_num [oscSoftClipInit]) (by norm_num [oscSoftClipInit]) (Or.inl rfl)

theorem rbMask_eq_mod (n : ℕ) : rbMask n = n % 16384 := by
  have h : RingBuffer.kSize - 1 = 2 ^ 14 - 1 := by norm_num [RingBuffer.kSize]
  unfold rbMask
  rw [h, Nat.and_pow_two_sub_one_eq_mod]

theorem rbMask_lt (n : ℕ) : rbMask n < 16384 := by
  rw [rbMask_eq_mod]
  exact Nat.mod_lt _ (by norm_num)

theorem rbMask_add_ne {p d : ℕ} (h0 : 0 < d) (h1 : d < 16384) :
    rbMask (p + d) ≠ rbMask p := by
  rw [rbMask_eq_mod, rbMask_eq_mod]
  omega

theorem writeList_write_pos (xs : List (ℚ × ℚ)) (rb : RingBuffer) :
    (rb.writeList xs).write_pos = rb.write_pos + xs.length := by
  induction xs generalizing rb with
  | nil => rfl
  | cons x xs ih =>
    show ((rb.write x.1 x.2).writeList xs).write_pos = _
    rw [ih]
    show rb.write_pos + 1 + xs.length = rb.write_pos + (xs.length + 1)
    omega

theorem writeList_left_untouched (xs : List (ℚ × ℚ)) (rb : RingBuffer) (j : ℕ)
    (h : ∀ i < xs.length, rbMask (rb.write_pos + i) ≠ j) :
    (rb.writeList xs).left j = rb.left j := by
  induction xs generalizing rb with
  | nil => rfl
  | cons x xs ih =>
    have hcond : ∀ i < xs.length, rbMask ((rb.write x.1 x.2).write_pos + i) ≠ j := by
      intro i hi
      have hh := h (i + 1) (by rw [List.length_cons]; omega)
      show rbMask (rb.write_pos + 1 + i) ≠ j
      rw [show rb.write_pos + 1 + i = rb.write_pos + (i + 1) by omega]
      exact hh
    show ((rb.write x.1 x.2).writeList xs).left j = _
    rw [ih (rb.write x.1 x.2) hcond]
    have h0 := h 0 (by rw [List.length_cons]; omega)
    rw [Nat.add_zero] at h0
    show Function.update rb.left (rbMask rb.write_pos) x.1 j = rb.left j
    exact Function.update_noteq (Ne.symm h0) _ _

theorem writeList_right_untouched (xs : List (ℚ × ℚ)) (rb : RingBuffer) (j : ℕ)
    (h : ∀ i < xs.length, rbMask (rb.write_pos + i) ≠ j) :
    (rb.writeList xs).right j = rb.right j := by
  induction xs generalizing rb with
  | nil => rfl
  | cons x xs ih =>
    have hcond : ∀ i < xs.length, rbMask ((rb.write x.1 x.2).write_pos + i) ≠ j := by
      intro i hi
      have hh := h (i + 1) (by rw [List.length_cons]; omega)
      show rbMask (rb.write_pos + 1 + i) ≠ j
      rw [show rb.write_pos + 1 + i = rb.write_pos + (i + 1) by omega]
      exact hh
    show ((rb.write x.1 x.2).writeList xs).right j = _
    rw [ih (rb.write x.1 x.2) hcond]
    have h0 := h 0 (by rw [List.length_cons]; omega)
    rw [Nat.add_zero] at h0
    show Function.update rb.right (rbMask rb.write_pos) x.2 j = rb.right j
    exact Function.update_noteq (Ne.symm h0) _ _

theorem writeList_left_get (xs : List (ℚ × ℚ)) (rb : RingBuffer) (i : ℕ)
    (hi : i < xs.length) (hlast : xs.length ≤ i + 16384) :
    (rb.writeList xs).left (rbMask (rb.write_pos + i)) = (xs.get ⟨i, hi⟩).1 := by
  induction xs generalizing rb i with
  | nil => exact absurd hi (by simp)
  | cons x xs ih =>
    rw [List.length_cons] at hi hlast
    cases i with
    | zero =>
      show ((rb.write x.1 x.2).writeList xs).left (rbMask (rb.write_pos + 0)) = x.1
      rw [Nat.add_zero]
      rw [writeList_left_untouched xs (rb.write x.1 x.2) (rbMask rb.write_pos) ?_]
      · show Function.update rb.left (rbMask rb.write_pos) x.1 (rbMask rb.write_pos) = x.1
        exact Function.update_same _ _ _
      · intro k hk
        show rbMask (rb.write_pos + 1 + k) ≠ rbMask rb.write_pos
        rw [show rb.write_pos + 1 + k = rb.write_pos + (1 + k) by omega]
        exact rbMask_add_ne (by omega) (by omega)
    | succ i =>
      show ((rb.write x.1 x.2).writeList xs).left (rbMask (rb.write_pos + (i + 1)))
        = (xs.get ⟨i, by omega⟩).1
      rw [show rb.write_pos + (i + 1) = rb.write_pos + 1 + i by omega]
      exact ih (rb.write x.1 x.2) i (by omega) (by omega)

theorem writeList_right_get (xs : List (ℚ × ℚ)) (rb : RingBuffer) (i : ℕ)
    (hi : i < xs.length) (hlast : xs.length ≤ i + 16384) :
    (rb.writeList xs).right (rbMask (rb.write_pos + i)) = (xs.get ⟨i, hi⟩).2 := by
  induction xs generalizing rb i with
  | nil => exact absurd hi (by simp)
  | cons x xs ih =>
    rw [List.length_cons] at hi hlast
    cases i with
    | zero =>
      show ((rb.write x.1 x.2).writeList xs).right (rbMask (rb.write_pos + 0)) = x.2
      rw [Nat.add_zero]
      rw [writeList_right_untouched xs (rb.write x.1 x.2) (rbMask rb.write_pos) ?_]
      · show Function.update rb.right (rbMask rb.write_pos) x.2 (rbMask rb.write_pos) = x.2
        exact Function.update_same _ _ _
      · intro k hk
        show rbMask (rb.write_pos + 1 + k) ≠ rbMask rb.write_pos
        rw [show rb.write_pos + 1 + k = rb.write_pos + (1 + k) by omega]
        exact rbMask_add_ne (by omega) (by omega)
    | succ i =>
      show ((rb.write x.1 x.2).writeList xs).right (rbMask (rb.write_pos + (i + 1)))
        = (xs.get ⟨i, by omega⟩).2
      rw [show rb.write_pos + (i + 1) = rb.write_pos + 1 + i by omega]
      exact ih (rb.write x.1 x.2) i (by omega) (by omega)

theorem read_last_of_le (xs : List (ℚ × ℚ)) (k : ℕ) (hk16 : k ≤ 16384)
    (hklen : k ≤ xs.length) :
    (RingBuffer.init.writeList xs).read k 0
      = ((xs.drop (xs.length - k)).map Prod.fst, (xs.drop (xs.length - k)).map Prod.snd) := by
  have hwp : (RingBuffer.init.writeList xs).write_pos = xs.length := by
    rw [writeList_write_pos]
    show 0 + xs.length = xs.length
    omega
  unfold RingBuffer.read
  dsimp only
  rw [hwp, if_pos (by omega : xs.length ≥ k + 0)]
  have hdlen : ((xs.drop (xs.length - k)).length) = k := by
    rw [List.length_drop]
    omega
  rw [Prod.mk.injEq]
  constructor
  · apply List.ext_getElem
    · simp only [List.length_map, List.length_range, List.length_drop]
      omega
    · intro n h1 h2
      simp only [List.getElem_map, List.getElem_range]
      have hn : n < k := by simpa using h1
      have hg := writeList_left_get xs RingBuffer.init (xs.length - k + n)
        (by omega) (by omega)
      have e : RingBuffer.init.write_pos + (xs.length - k + n) = xs.length - k - 0 + n := by
        show 0 + (xs.length - k + n) = xs.length - k - 0 + n
        omega
      rw [e] at hg
      rw [hg, List.getElem_drop, List.get_eq_getElem]
  · apply List.ext_getElem
    · simp only [List.length_map, List.length_range, List.length_drop]
      omega
    · intro n h1 h2
      simp only [List.getElem_map, List.getElem_range]
      have hn : n < k := by simpa using h1
      have hg := writeList_right_get xs RingBuffer.init (xs.length - k + n)
        (by omega) (by omega)
      have e : RingBuffer.init.write_pos + (xs.length - k + n) = xs.length - k - 0 + n := by
        show 0 + (xs.length - k + n) = xs.length - k - 0 + n
        omega
      rw [e] at hg
      rw [hg, List.getElem_drop, List.get_eq_getElem]

/-- C3: writing `k ≤ 16384` stereo samples into the fresh ring buffer and
reading the last `k` returns exactly those samples in write order; writing
`16384 + m` samples and reading `16384` returns the most recent `16384`
samples in order, the oldest `m` having been overwritten. -/
theorem ringBuffer_read_last_writes (xs : List (ℚ × ℚ)) :
    (xs.length ≤ RingBuffer.kSize →
      (RingBuffer.init.writeList xs).read xs.length 0
        = (xs.map Prod.fst, xs.map Prod.snd))
    ∧ (RingBuffer.kSize ≤ xs.length →
      (RingBuffer.init.writeList xs).read RingBuffer.kSize 0
        = ((xs.drop (xs.length - RingBuffer.kSize)).map Prod.fst,
           (xs.drop (xs.length - RingBuffer.kSize)).map Prod.snd)) := by
  constructor
  · intro h
    have := read_last_of_le xs xs.length (by simpa [RingBuffer.kSize] using h) le_rfl
    rw [Nat.sub_self, List.drop_zero] at this
    exact this
  · intro h
    exact read_last_of_le xs RingBuffer.kSize (by norm_num [RingBuffer.kSize])
      (by simpa [RingBuffer.kSize] using h)

/-- Witness for `ringBuffer_read_last_writes`: a sequence of exactly 16384
samples satisfies both hypotheses. -/
theorem ringBuffer_read_last_writes_witness :
    (RingBuffer.init.writeList (List.replicate 16384 ((1 : ℚ), (2 : ℚ)))).read
        (List.replicate 16384 ((1 : ℚ), (2 : ℚ))).length 0
      = ((List.replicate 16384 ((1 : ℚ), (2 : ℚ))).map Prod.fst,
         (List.replicate 16384 ((1 : ℚ), (2 : ℚ))).map Prod.snd)
    ∧ (RingBuffer.init.writeList (List.replicate 16384 ((1 : ℚ), (2 : ℚ)))).read
        RingBuffer.kSize 0
      = (((List.replicate 16384 ((1 : ℚ), (2 : ℚ))).drop
            ((List.replicate 16384 ((1 : ℚ), (2 : ℚ))).length - RingBuffer.kSize)).map Prod.fst,
         ((List.replicate 16384 ((1 : ℚ), (2 : ℚ))).drop
            ((List.replicate 16384 ((1 : ℚ), (2 : ℚ))).length - RingBuffer.kSize)).map Prod.snd) :=
  ⟨(ringBuffer_read_last_writes _).1 (by rw [List.length_replicate]; exact le_rfl),
   (ringBuffer_read_last_writes _).2 (by rw [List.length_replicate]; exact le_rfl)⟩

theorem stateAt_succ (thresh : ℚ) (rising : Bool) (p0 : AudioPlayer)
    (samples : ℕ → ℚ × ℚ) (n : ℕ) :
    AudioPlayer.stateAt thresh rising p0 samples (n + 1)
      = AudioPlayer.processScopeSample thresh rising
          (AudioPlayer.stateAt thresh rising p0 samples n) (samples n).1 (samples n).2 := rfl

theorem processScopeSample_holdoff (thresh : ℚ) (rising : Bool) (p : AudioPlayer)
    (scope_l scope_r : ℚ) :
    (AudioPlayer.processScopeSample thresh rising p scope_l scope_r).trigger_holdoff
      = if (AudioPlayer.crossed thresh rising p.prev_trigger_l scope_l
            && decide (p.trigger_holdoff ≥ AudioPlayer.kSweepSamples)) = true
        then 1 else p.trigger_holdoff + 1 := by
  unfold AudioPlayer.processScopeSample
  dsimp only
  split_ifs <;> rfl

theorem processScopeSample_prev (thresh : ℚ) (rising : Bool) (p : AudioPlayer)
    (scope_l scope_r : ℚ) :
    (AudioPlayer.processScopeSample thresh rising p scope_l scope_r).prev_trigger_l
      = scope_l := by
  unfold AudioPlayer.processScopeSample
  dsimp only
  split_ifs <;> rfl

theorem processScopeSample_ring (thresh : ℚ) (rising : Bool) (p : AudioPlayer)
    (scope_l scope_r : ℚ) :
    (AudioPlayer.processScopeSample thresh rising p scope_l scope_r).ring_buffer
      = p.ring_buffer.write scope_l scope_r := by
  unfold AudioPlayer.processScopeSample
  dsimp only
  split_ifs <;> rfl

theorem processScopeSample_latest (thresh : ℚ) (rising : Bool) (p : AudioPlayer)
    (scope_l scope_r : ℚ) :
    (AudioPlayer.processScopeSample thresh rising p scope_l scope_r).latest_trigger_pos
      = if (AudioPlayer.crossed thresh rising p.prev_trigger_l scope_l
            && decide (p.trigger_holdoff ≥ AudioPlayer.kSweepSamples)) = true
        then rbMask ((p.ring_buffer.write scope_l scope_r).writePos)
        else p.latest_trigger_pos := by
  unfold AudioPlayer.processScopeSample
  dsimp only
  split_ifs <;> rfl

theorem stateAt_holdoff_succ (thresh : ℚ) (rising : Bool) (p0 : AudioPlayer)
    (samples : ℕ → ℚ × ℚ) (n : ℕ) :
    (AudioPlayer.stateAt thresh rising p0 samples (n + 1)).trigger_holdoff
      = if AudioPlayer.acceptedAt thresh rising p0 samples n = true then 1
        else (AudioPlayer.stateAt thresh rising p0 samples n).trigger_holdoff + 1 := by
  rw [stateAt_succ, processScopeSample_holdoff]
  rfl

theorem stateAt_holdoff_le (thresh : ℚ) (rising : Bool) (p0 : AudioPlayer)
    (samples : ℕ → ℚ × ℚ) (i j : ℕ) (hij : i ≤ j) :
    (AudioPlayer.stateAt thresh rising p0 samples j).trigger_holdoff
      ≤ (AudioPlayer.stateAt thresh rising p0 samples i).trigger_holdoff + (j - i) := by
  induction hij with
  | refl => omega
  | @step m h ih =>
    simp only [Nat.succ_eq_add_one]
    have hm : i ≤ m := h
    have hstep := stateAt_holdoff_succ thresh rising p0 samples m
    by_cases ha : AudioPlayer.acceptedAt thresh rising p0 samples m = true
    · rw [if_pos ha] at hstep
      omega
    · rw [if_neg ha] at hstep
      omega

theorem acceptedAt_holdoff_ge (thresh : ℚ) (rising : Bool) (p0 : AudioPlayer)
    (samples : ℕ → ℚ × ℚ) (n : ℕ)
    (h : AudioPlayer.acceptedAt thresh rising p0 samples n = true) :
    AudioPlayer.kSweepSamples
      ≤ (AudioPlayer.stateAt thresh rising p0 samples n).trigger_holdoff := by
  unfold AudioPlayer.acceptedAt at h
  dsimp only at h
  exact of_decide_eq_true ((Bool.and_eq_true _ _).mp h).2

/-- C1: a crossing is accepted as a trigger only when the holdoff counter has
reached a full sweep (`kSweepSamples = 1024`); the counter is reset on
acceptance (to 0, then incremented like every processed scope sample, hence 1
at the end of the accepting sample) and incremented on every other processed
sample — consequently any two accepted triggers of a run are at least 1024
processed samples apart. -/
theorem trigger_holdoff_min_gap (thresh : ℚ) (rising : Bool) (p0 : AudioPlayer)
    (samples : ℕ → ℚ × ℚ) :
    (∀ n, (AudioPlayer.stateAt thresh rising p0 samples (n + 1)).trigger_holdoff
        = if AudioPlayer.acceptedAt thresh rising p0 samples n = true then 1
          else (AudioPlayer.stateAt thresh rising p0 samples n).trigger_holdoff + 1)
    ∧ ∀ i j, AudioPlayer.acceptedAt thresh rising p0 samples i = true →
        AudioPlayer.acceptedAt thresh rising p0 samples j = true →
        i < j → i + AudioPlayer.kSweepSamples ≤ j := by
  refine ⟨stateAt_holdoff_succ thresh rising p0 samples, ?_⟩
  intro i j hi hj hij
  have h1 : (AudioPlayer.stateAt thresh rising p0 samples (i + 1)).trigger_holdoff = 1 := by
    rw [stateAt_holdoff_succ, if_pos hi]
  have h2 := stateAt_holdoff_le thresh rising p0 samples (i + 1) j (by omega)
  have h3 := acceptedAt_holdoff_ge thresh rising p0 samples j hj
  have hk : AudioPlayer.kSweepSamples = 1024 := rfl
  rw [hk] at h3 ⊢
  omega

theorem wSamples_accepted_0 : AudioPlayer.acceptedAt 0 true wPlayer0 wSamples 0 = true := by
  decide

theorem wSamples_state_char : ∀ k, 2 ≤ k → k ≤ 1024 →
    (AudioPlayer.stateAt 0 true wPlayer0 wSamples k).prev_trigger_l = -1
    ∧ (AudioPlayer.stateAt 0 true wPlayer0 wSamples k).trigger_holdoff = k := by
  intro k
  induction k with
  | zero => intro h; omega
  | succ k ih =>
    intro h2 h1024
    by_cases hk : k = 1
    · subst hk
      exact ⟨by decide, by decide⟩
    · have hk2 : 2 ≤ k := by omega
      obtain ⟨hp, hh⟩ := ih hk2 (by omega)
      have hsam : wSamples k = (-1, 0) := by
        unfold wSamples
        rw [if_neg (by omega : ¬ (k = 0 ∨ k = 1024))]
      have hacc : AudioPlayer.acceptedAt 0 true wPlayer0 wSamples k = false := by
        unfold AudioPlayer.acceptedAt
        dsimp only
        rw [hsam]
        dsimp only
        rw [hp]
        rw [show AudioPlayer.crossed 0 true (-1) (-1) = false from by decide, Bool.false_and]
      constructor
      · rw [stateAt_succ, processScopeSample_prev, hsam]
      · rw [stateAt_holdoff_succ,
          if_neg (fun hcon => Bool.false_ne_true (hacc ▸ hcon)), hh]

theorem wSamples_accepted_1024 :
    AudioPlayer.acceptedAt 0 true wPlayer0 wSamples 1024 = true := by
  obtain ⟨hp, hh⟩ := wSamples_state_char 1024 (by omega) le_rfl
  unfold AudioPlayer.acceptedAt
  dsimp only
  have hsam : wSamples 1024 = (1, 0) := by
    unfold wSamples
    rw [if_pos (Or.inr rfl)]
  rw [hsam]
  dsimp only
  rw [hp, hh]
  decide

/-- Witness for `trigger_holdoff_min_gap`: in the concrete run `wSamples`
from `wPlayer0`, samples 0 and 1024 are both accepted and lie exactly one
sweep apart. -/
theorem trigger_holdoff_min_gap_witness :
    AudioPlayer.acceptedAt 0 true wPlayer0 wSamples 0 = true
    ∧ AudioPlayer.acceptedAt 0 true wPlayer0 wSamples 1024 = true
    ∧ 0 + AudioPlayer.kSweepSamples ≤ 1024 :=
  ⟨wSamples_accepted_0, wSamples_accepted_1024,
   (trigger_holdoff_min_gap 0 true wPlayer0 wSamples).2 0 1024
     wSamples_accepted_0 wSamples_accepted_1024 (by omega)⟩

theorem stateAt_write_pos (thresh : ℚ) (rising : Bool) (samples : ℕ → ℚ × ℚ) (n : ℕ) :
    (AudioPlayer.stateAt thresh rising AudioPlayer.init samples n).ring_buffer.write_pos
      = n := by
  induction n with
  | zero => rfl
  | succ n ih =>
    rw [stateAt_succ, processScopeSample_ring]
    show (AudioPlayer.stateAt thresh rising AudioPlayer.init samples n).ring_buffer.write_pos
        + 1 = n + 1
    rw [ih]

theorem stateAt_latest_lt (thresh : ℚ) (rising : Bool) (samples : ℕ → ℚ × ℚ) (n : ℕ) :
    (AudioPlayer.stateAt thresh rising AudioPlayer.init samples n).latest_trigger_pos
      < 16384 := by
  induction n with
  | zero => show (0 : ℕ) < 16384; norm_num
  | succ n ih =>
    rw [stateAt_succ, processScopeSample_latest]
    split_ifs
    · exact rbMask_lt _
    · exact ih

/-- C2 (code evaluation): once at least `24576 = 16384 + 8192` scope samples
have been processed from startup, `getTriggeredSamples` reports free-run
(returns `false`) for every query — regardless of the sample stream and in
particular even if a trigger was accepted on the immediately preceding
sample — because it subtracts the masked stored trigger position from the
unmasked write cursor. -/
theorem getTriggeredSamples_always_freerun_after_24576 (thresh : ℚ) (rising : Bool)
    (samples : ℕ → ℚ × ℚ) (m num_samples : ℕ) :
    (AudioPlayer.getTriggeredSamples
        (AudioPlayer.stateAt thresh rising AudioPlayer.init samples (24576 + m))
        num_samples).1 = false := by
  have hwp := stateAt_write_pos thresh rising samples (24576 + m)
  have hlt := stateAt_latest_lt thresh rising samples (24576 + m)
  have hwp2 : (AudioPlayer.stateAt thresh rising AudioPlayer.init samples
      (24576 + m)).ring_buffer.writePos = 24576 + m := hwp
  have hcond : (AudioPlayer.stateAt thresh rising AudioPlayer.init samples
        (24576 + m)).latest_trigger_pos = 0
      ∨ (AudioPlayer.stateAt thresh rising AudioPlayer.init samples
          (24576 + m)).ring_buffer.writePos
        - (AudioPlayer.stateAt thresh rising AudioPlayer.init samples
            (24576 + m)).latest_trigger_pos > RingBuffer.kSize / 2 := by
    right
    have hks : RingBuffer.kSize / 2 = 8192 := by norm_num [RingBuffer.kSize]
    rw [hks, hwp2]
    omega
  unfold AudioPlayer.getTriggeredSamples
  dsimp only
  rw [if_pos hcond]
